import Mathlib

/-!
Verification development for the node-cgi repository: a shallow embedding of
`cgiNode.js`, `exec.js` and the multipart form-data parser, together with
theorems settling the frozen claims about the specification.

Strings from the JavaScript source are modelled by Lean `String`; raw byte
buffers (Node `Buffer`) are modelled by `List Char`, one `Char` per byte.
-/

set_option autoImplicit false

namespace Cgi

/-! ### Generic list and string utilities shared by the embeddings -/

/-- Concatenation of a list of strings, the model of JavaScript
`array.join('')` used by the error-report templates. -/
def concatStrs : List String → String
  | [] => ""
  | s :: t => s ++ concatStrs t

theorem strData (a b : String) : (a ++ b).data = a.data ++ b.data := rfl

theorem strMkData (l : List Char) : (String.mk l).data = l := rfl

theorem strAppendNil (a : String) : a ++ "" = a := by
  cases a with
  | mk l => show String.mk (l ++ []) = String.mk l; rw [List.append_nil]

theorem concatStrs_append (a b : List String) :
    concatStrs (a ++ b) = concatStrs a ++ concatStrs b := by
  induction a with
  | nil =>
      show concatStrs b = "" ++ concatStrs b
      cases h : concatStrs b with
      | mk l => show String.mk l = String.mk ([] ++ l); rw [List.nil_append]
  | cons s t ih =>
      show s ++ concatStrs (t ++ b) = (s ++ concatStrs t) ++ concatStrs b
      rw [ih]
      cases s; cases concatStrs t; cases concatStrs b
      show String.mk (_ ++ (_ ++ _)) = String.mk ((_ ++ _) ++ _)
      rw [List.append_assoc]

/-- Index of the first occurrence of `pat` in `l` (the model of
JavaScript `indexOf` for strings and buffers), `none` when absent. -/
def firstIdx (pat : List Char) : List Char → Option Nat
  | [] => if pat = [] then some 0 else none
  | l@(_ :: t) => if pat.isPrefixOf l then some 0 else (firstIdx pat t).map (· + 1)

theorem firstIdx_of_prefix (pat l : List Char) (h : pat.isPrefixOf l) :
    firstIdx pat l = some 0 := by
  cases l with
  | nil =>
      have : pat = [] := by
        cases pat with
        | nil => rfl
        | cons a t => simp [List.isPrefixOf] at h
      simp [firstIdx, this]
  | cons a t => simp [firstIdx, h]

theorem firstIdx_append_of_not_early (pat x y : List Char)
    (hx : ∀ i, i < x.length → ¬ pat.isPrefixOf (x.drop i ++ y))
    (hy : pat.isPrefixOf y) :
    firstIdx pat (x ++ y) = some x.length := by
  induction x with
  | nil => simpa using firstIdx_of_prefix pat y hy
  | cons a t ih =>
      have h0 : ¬ pat.isPrefixOf (a :: (t ++ y)) = true := by
        have := hx 0 (by simp)
        simpa using this
      have ht : firstIdx pat (t ++ y) = some t.length := by
        apply ih
        intro i hi
        have := hx (i + 1) (by simpa using Nat.succ_lt_succ hi)
        simpa using this
      show firstIdx pat (a :: (t ++ y)) = some (t.length + 1)
      rw [firstIdx, if_neg h0, ht]
      rfl

theorem isPrefixOf_append_self (l r : List Char) : l.isPrefixOf (l ++ r) = true := by
  induction l with
  | nil => simp [List.isPrefixOf]
  | cons a t ih => simpa [List.isPrefixOf] using ih

/-! ### Response Builder (`cgiNode.js`): `header`, `echo`, `exit` -/

/-- The mutable response state of `cgiNode.js`: the `headersSent` flag and
the two output buffers. -/
structure RState where
  headersSent : Bool
  headerBuffer : String
  bodyBuffer : String
deriving DecidableEq

/-- The model of JavaScript `str.endsWith('\r\n')`. -/
def endsCRLF (s : String) : Bool := ['\r', '\n'].isSuffixOf s.data

/-- Port of `header(str)` from `cgiNode.js`: a no-op once headers were
sent, otherwise appends the line, normalizing the CRLF terminator. -/
def header (str : String) (st : RState) : RState :=
  if st.headersSent then st
  else { st with headerBuffer :=
          st.headerBuffer ++ (if endsCRLF str then str else str ++ "\r\n") }

/-- Port of `echo(str)` from `cgiNode.js`. -/
def echo (str : String) (st : RState) : RState :=
  { st with bodyBuffer := st.bodyBuffer ++ str }

/-- Port of `exit(msg)` from `cgiNode.js`: returns the final state and the
bytes written to standard output (header block, blank line, `msg` when
non-empty, then the body buffer). -/
def exit (st : RState) (msg : String) : RState × String :=
  let pre := if st.headersSent then "" else st.headerBuffer ++ "\r\n"
  ({ st with headersSent := true },
   pre ++ (if msg ≠ "" then msg else "") ++ st.bodyBuffer)

/-! ### `html_escape` (`cgiNode.js`) -/

/-- The replacement map of `html_escape`: the JavaScript object lookup
applied by `str.replace(/[&<>"']/g, c => (...)[c])`. -/
def escChar (c : Char) : String :=
  if c = '&' then "&amp;"
  else if c = '<' then "&lt;"
  else if c = '>' then "&gt;"
  else if c = '"' then "&quot;"
  else if c = '\'' then "&#039;"
  else String.mk [c]

/-- Port of `html_escape(str)` from `cgiNode.js`: every occurrence of a
character in the class `[&<>"']` is replaced through `escChar`, all other
characters are copied unchanged. -/
def html_escape (s : String) : String := concatStrs (s.data.map escChar)

theorem html_escape_append (a b : String) :
    html_escape (a ++ b) = html_escape a ++ html_escape b := by
  unfold html_escape
  rw [strData, List.map_append, concatStrs_append]

theorem html_escape_single (c : Char) : html_escape (String.mk [c]) = escChar c := by
  unfold html_escape
  rw [strMkData]
  show escChar c ++ "" = escChar c
  exact strAppendNil _

/-! ### Cookie parsing (`cgiNode.js`) -/

/-- Splits on every occurrence of the single character `c`, the model of
JavaScript `str.split(c)` for a one-character separator. -/
def splitOnChar (c : Char) : List Char → List (List Char)
  | [] => [[]]
  | a :: t =>
    let r := splitOnChar c t
    if a = c then [] :: r
    else
      match r with
      | h :: rest => (a :: h) :: rest
      | [] => [[a]]

theorem splitOnChar_ne_nil (c : Char) (l : List Char) : splitOnChar c l ≠ [] := by
  cases l with
  | nil => simp [splitOnChar]
  | cons a t =>
      simp only [splitOnChar]
      cases h : splitOnChar c t with
      | nil => split <;> simp
      | cons x xs => split <;> simp

theorem splitOnChar_not_mem (c : Char) (l : List Char) (h : c ∉ l) :
    splitOnChar c l = [l] := by
  induction l with
  | nil => rfl
  | cons a t ih =>
      have ha : ¬ a = c := fun hh => h (hh ▸ List.mem_cons_self a t)
      have ht : c ∉ t := fun hh => h (List.mem_cons_of_mem a hh)
      simp only [splitOnChar, ih ht, if_neg ha]

theorem splitOnChar_append (c : Char) (x y : List Char) (h : c ∉ x) :
    splitOnChar c (x ++ c :: y) = x :: splitOnChar c y := by
  induction x with
  | nil => simp [splitOnChar]
  | cons a t ih =>
      have ha : ¬ a = c := fun hh => h (hh ▸ List.mem_cons_self a t)
      have ht : c ∉ t := fun hh => h (List.mem_cons_of_mem a hh)
      show splitOnChar c (a :: (t ++ c :: y)) = (a :: t) :: splitOnChar c y
      simp only [splitOnChar, ih ht, if_neg ha]

/-- The model of JavaScript `String.prototype.trim`: removes leading and
trailing whitespace. -/
def jsTrim (l : List Char) : List Char :=
  ((l.dropWhile Char.isWhitespace).reverse.dropWhile Char.isWhitespace).reverse

/-- Processing of one `;`-separated cookie entry, ported from
`parseCookies` in `cgiNode.js`: trim, split on `=`, destructure the first
two components, and keep the pair only when both are truthy (non-empty). -/
def cookieEntry (entry : List Char) : Option (List Char × List Char) :=
  let t := jsTrim entry
  let ps := splitOnChar '=' t
  let key := ps.headD []
  match ps.get? 1 with
  | some value => if key ≠ [] ∧ value ≠ [] then some (key, value) else none
  | none => none

/-- Assignment `cookies[key] = value` on the accumulating object. -/
def cUpsert (m : List (List Char × List Char)) (k v : List Char) :
    List (List Char × List Char) :=
  match m with
  | [] => [(k, v)]
  | (k0, v0) :: t => if k0 = k then (k0, v) :: t else (k0, v0) :: cUpsert t k v

/-- Port of `parseCookies` from `cgiNode.js` applied to the raw
`HTTP_COOKIE` header value. -/
def parseCookies (hdr : List Char) : List (List Char × List Char) :=
  (splitOnChar ';' hdr).foldl
    (fun m e => match cookieEntry e with
                | some (k, v) => cUpsert m k v
                | none => m) []

/-! ### Urlencoded body parsing (`parseUrlEncodedBody` in `cgiNode.js`,
which delegates to Node's `querystring.parse`) -/

/-- A value of Node's `querystring.parse` result object: a plain string for
a key seen once, an array of strings for a repeated key. -/
inductive QSVal where
  | str (s : String)
  | arr (l : List String)
deriving DecidableEq

def hexVal (c : Char) : Option Nat :=
  if 48 ≤ c.toNat ∧ c.toNat ≤ 57 then some (c.toNat - 48)
  else if 97 ≤ c.toNat ∧ c.toNat ≤ 102 then some (c.toNat - 87)
  else if 65 ≤ c.toNat ∧ c.toNat ≤ 70 then some (c.toNat - 55)
  else none

/-- Percent-decoding used by `querystring.parse`: `+` becomes a space and
`%XY` becomes the byte `0xXY` (multi-byte UTF-8 sequences are modelled
byte by byte); malformed escapes stay literal. -/
def decodeQSChars : List Char → List Char
  | [] => []
  | '%' :: a :: b :: t2 =>
    match hexVal a, hexVal b with
    | some x, some y => Char.ofNat (16 * x + y) :: decodeQSChars t2
    | _, _ => '%' :: decodeQSChars (a :: b :: t2)
  | c :: t => if c = '+' then ' ' :: decodeQSChars t else c :: decodeQSChars t

/-- The raw key/value pairs of a urlencoded body in source order: split on
`&`, skip empty segments, split each segment at its first `=`, decode both
sides. -/
def pairsOf (body : String) : List (String × String) :=
  ((splitOnChar '&' body.data).filter (· ≠ [])).map fun seg =>
    match firstIdx ['='] seg with
    | some i => (String.mk (decodeQSChars (seg.take i)),
                 String.mk (decodeQSChars (seg.drop (i + 1))))
    | none => (String.mk (decodeQSChars seg), "")

def lookupQS (k : String) : List (String × QSVal) → Option QSVal
  | [] => none
  | (k0, v0) :: t => if k0 = k then some v0 else lookupQS k t

def updateQS : List (String × QSVal) → String → QSVal → List (String × QSVal)
  | [], _, _ => []
  | (k0, v0) :: t, k, v => if k0 = k then (k0, v) :: t else (k0, v0) :: updateQS t k v

/-- One key/value insertion of `querystring.parse`: a new key is appended
as a plain string, a repeated key turns into (or extends) an array. -/
def qsInsert (m : List (String × QSVal)) (k v : String) : List (String × QSVal) :=
  match lookupQS k m with
  | none => m ++ [(k, QSVal.str v)]
  | some (QSVal.str s) => updateQS m k (QSVal.arr [s, v])
  | some (QSVal.arr l) => updateQS m k (QSVal.arr (l ++ [v]))

/-- Port of `parseUrlEncodedBody(buffer)` from `cgiNode.js`: the result of
`querystring.parse` on the body, whose entries are then copied into
`_POST` key by key. -/
def parseUrlEncodedBody (body : String) : List (String × QSVal) :=
  (pairsOf body).foldl (fun m p => qsInsert m p.1 p.2) []

def stepQS : Option QSVal → String → Option QSVal
  | none, v => some (QSVal.str v)
  | some (QSVal.str s), v => some (QSVal.arr [s, v])
  | some (QSVal.arr l), v => some (QSVal.arr (l ++ [v]))

def combineQS : Option QSVal → List String → Option QSVal
  | o, [] => o
  | o, v :: vs => combineQS (stepQS o v) vs

/-- The shape of the parsed value as a function of all occurrences of a
key: absent, a single string, or the array of every value in order. -/
def valsToQS : List String → Option QSVal
  | [] => none
  | [v] => some (QSVal.str v)
  | v :: vs => some (QSVal.arr (v :: vs))

theorem lookupQS_append (k : String) (m l : List (String × QSVal)) :
    lookupQS k (m ++ l) =
      match lookupQS k m with
      | some v => some v
      | none => lookupQS k l := by
  induction m with
  | nil => simp [lookupQS]
  | cons p t ih =>
      obtain ⟨k0, v0⟩ := p
      show lookupQS k ((k0, v0) :: (t ++ l)) = _
      by_cases h : k0 = k
      · simp [lookupQS, h]
      · simp [lookupQS, h, ih]

theorem lookupQS_updateQS_self (k : String) (x : QSVal)
    (m : List (String × QSVal)) (h : (lookupQS k m).isSome) :
    lookupQS k (updateQS m k x) = some x := by
  induction m with
  | nil => simp [lookupQS] at h
  | cons p t ih =>
      obtain ⟨k0, v0⟩ := p
      by_cases hk : k0 = k
      · simp [updateQS, lookupQS, hk]
      · have : (lookupQS k t).isSome := by simpa [lookupQS, hk] using h
        simp [updateQS, lookupQS, hk, ih this]

theorem lookupQS_updateQS_other (k a : String) (x : QSVal)
    (m : List (String × QSVal)) (h : ¬ k = a) :
    lookupQS k (updateQS m a x) = lookupQS k m := by
  induction m with
  | nil => rfl
  | cons p t ih =>
      obtain ⟨k0, v0⟩ := p
      by_cases hk : k0 = a
      · have hak : ¬ a = k := fun hh => h hh.symm
        have hk0 : ¬ k0 = k := by rw [hk]; exact hak
        simp [updateQS, lookupQS, hk, hk0, hak]
      · simp [updateQS, lookupQS, hk, ih]

theorem lookupQS_qsInsert (m : List (String × QSVal)) (a b k : String) :
    lookupQS k (qsInsert m a b) =
      if k = a then stepQS (lookupQS k m) b else lookupQS k m := by
  by_cases hk : k = a
  · subst hk
    unfold qsInsert
    cases h : lookupQS k m with
    | none => simp [lookupQS_append, h, lookupQS, stepQS]
    | some v =>
        cases v with
        | str s => simp [h, stepQS, lookupQS_updateQS_self k _ m (by simp [h])]
        | arr l => simp [h, stepQS, lookupQS_updateQS_self k _ m (by simp [h])]
  · unfold qsInsert
    cases h : lookupQS a m with
    | none =>
        have hak : ¬ a = k := fun hh => hk hh.symm
        simp only [lookupQS_append, if_neg hk]
        cases hkm : lookupQS k m with
        | none => simp [lookupQS, hk, hak]
        | some v => simp
    | some v =>
        cases v with
        | str s => simp [lookupQS_updateQS_other k a _ m hk, hk]
        | arr l => simp [lookupQS_updateQS_other k a _ m hk, hk]

theorem lookupQS_foldl (ps : List (String × String)) (m : List (String × QSVal))
    (k : String) :
    lookupQS k (ps.foldl (fun m p => qsInsert m p.1 p.2) m) =
      combineQS (lookupQS k m) ((ps.filter (fun p => p.1 == k)).map Prod.snd) := by
  induction ps generalizing m with
  | nil => rfl
  | cons p t ih =>
      obtain ⟨a, b⟩ := p
      show lookupQS k (t.foldl _ (qsInsert m a b)) = _
      rw [ih]
      by_cases hk : a = k
      · subst hk
        simp [lookupQS_qsInsert, combineQS]
      · have hk2 : ¬ k = a := fun hh => hk hh.symm
        simp [lookupQS_qsInsert, hk, hk2]

theorem combineQS_arr (vs : List String) (l : List String) :
    combineQS (some (QSVal.arr l)) vs = some (QSVal.arr (l ++ vs)) := by
  induction vs generalizing l with
  | nil => simp [combineQS]
  | cons v t ih => simp [combineQS, stepQS, ih]

theorem combineQS_none (vs : List String) : combineQS none vs = valsToQS vs := by
  cases vs with
  | nil => rfl
  | cons v t =>
      cases t with
      | nil => rfl
      | cons w u =>
          show combineQS (stepQS none v) _ = _
          simp [stepQS, combineQS, combineQS_arr, valsToQS]

/-! ### Cache key derivation (`getCachePath` in `exec.js`)

`Buffer.from(jssPath)` yields the UTF-8 bytes of the path, so source paths
are modelled as byte lists (`List Nat`, each entry below 256). -/

/-- Base64 encoding to sextet values; `64` stands for the padding
character `=`. -/
def b64Encode : List Nat → List Nat
  | [] => []
  | [a] => [a / 4, a % 4 * 16, 64, 64]
  | [a, b] => [a / 4, a % 4 * 16 + b / 16, b % 16 * 4, 64]
  | a :: b :: c :: rest =>
      a / 4 :: (a % 4 * 16 + b / 16) :: (b % 16 * 4 + c / 64) :: c % 64 ::
        b64Encode rest

def b64Decode : List Nat → List Nat
  | c0 :: c1 :: c2 :: c3 :: rest =>
      if c2 = 64 then [c0 * 4 + c1 / 16]
      else if c3 = 64 then [c0 * 4 + c1 / 16, c1 % 16 * 16 + c2 / 4]
      else (c0 * 4 + c1 / 16) :: (c1 % 16 * 16 + c2 / 4) ::
             (c2 % 4 * 64 + c3) :: b64Decode rest
  | _ => []

theorem b64_roundtrip : ∀ l : List Nat, (∀ b ∈ l, b < 256) →
    b64Decode (b64Encode l) = l
  | [], _ => rfl
  | [a], h => by
      have ha : a < 256 := h a (by simp)
      simp [b64Encode, b64Decode]
      omega
  | [a, b], h => by
      have ha : a < 256 := h a (by simp)
      have hb : b < 256 := h b (by simp)
      have h2 : ¬ b % 16 * 4 = 64 := by omega
      simp [b64Encode, b64Decode, h2]
      omega
  | a :: b :: c :: rest, h => by
      have ha : a < 256 := h a (by simp)
      have hb : b < 256 := h b (by simp)
      have hc : c < 256 := h c (by simp)
      have h2 : ¬ (b % 16 * 4 + c / 64) = 64 := by omega
      have h3 : ¬ c % 64 = 64 := by omega
      have ih := b64_roundtrip rest (fun x hx => h x (by simp [hx]))
      simp [b64Encode, b64Decode, h2, h3, ih]
      omega

theorem b64Encode_injOn (p1 p2 : List Nat)
    (h1 : ∀ b ∈ p1, b < 256) (h2 : ∀ b ∈ p2, b < 256)
    (he : b64Encode p1 = b64Encode p2) : p1 = p2 := by
  have := congrArg b64Decode he
  rwa [b64_roundtrip p1 h1, b64_roundtrip p2 h2] at this

/-- The base64 alphabet of `Buffer.toString('base64')`, with index `64`
mapped to the padding character `=`. -/
def b64Alphabet (n : Nat) : Char :=
  if n < 26 then Char.ofNat (65 + n)
  else if n < 52 then Char.ofNat (97 + (n - 26))
  else if n < 62 then Char.ofNat (48 + (n - 52))
  else if n = 62 then '+'
  else if n = 63 then '/'
  else '='

/-- The character replacement of `.replace(/[/+=]/g, '_')`. -/
def sanChar (c : Char) : Char :=
  if c = '/' ∨ c = '+' ∨ c = '=' then '_' else c

/-- Port of `getCachePath(jssPath)` from `exec.js`, on the UTF-8 bytes of
the source path: base64-encode, replace `/`, `+`, `=` by `_`, and join
with the cache directory and the fixed suffix. -/
def getCachePath (pathBytes : List Nat) : String :=
  "jss_cache/" ++ String.mk (((b64Encode pathBytes).map b64Alphabet).map sanChar)
    ++ ".cache.js"

theorem sanChar_b64Alphabet_injOn (a b : Nat) (ha : a < 62) (hb : b < 62)
    (h : sanChar (b64Alphabet a) = sanChar (b64Alphabet b)) : a = b := by
  revert h
  interval_cases a <;> interval_cases b <;> decide

theorem map_keyChar_injOn (l1 l2 : List Nat)
    (h1 : ∀ v ∈ l1, v < 62) (h2 : ∀ v ∈ l2, v < 62)
    (h : (l1.map b64Alphabet).map sanChar = (l2.map b64Alphabet).map sanChar) :
    l1 = l2 := by
  induction l1 generalizing l2 with
  | nil => cases l2 with
    | nil => rfl
    | cons b t => simp at h
  | cons a t ih =>
      cases l2 with
      | nil => simp at h
      | cons b u =>
          simp only [List.map_cons, List.cons.injEq] at h
          have hab := sanChar_b64Alphabet_injOn a b
            (h1 a (by simp)) (h2 b (by simp)) h.1
          have := ih u (fun v hv => h1 v (by simp [hv]))
            (fun v hv => h2 v (by simp [hv])) h.2
          rw [hab, this]

/-! ### Template compilation (`parseJSSBlocks` in `exec.js`) -/

/-- `JSON.stringify` escaping of one character of a literal segment. -/
def jsonEscChar (c : Char) : List Char :=
  if c = '"' then ['\\', '"']
  else if c = '\\' then ['\\', '\\']
  else if c = '\n' then ['\\', 'n']
  else if c = '\r' then ['\\', 'r']
  else if c = '\t' then ['\\', 't']
  else if c = '\x08' then ['\\', 'b']
  else if c = '\x0c' then ['\\', 'f']
  else if c.toNat < 32 then
    '\\' :: 'u' :: '0' :: '0' ::
      (if c.toNat / 16 < 10 then Char.ofNat (48 + c.toNat / 16)
       else Char.ofNat (87 + c.toNat / 16)) ::
      [if c.toNat % 16 < 10 then Char.ofNat (48 + c.toNat % 16)
       else Char.ofNat (87 + c.toNat % 16)]
  else [c]

def concatL : List (List Char) → List Char
  | [] => []
  | l :: t => l ++ concatL t

/-- The model of `JSON.stringify(staticHTML)`. -/
def jsonStringify (l : List Char) : List Char :=
  '"' :: concatL (l.map jsonEscChar) ++ ['"']

/-- One `echo(...)` block wrapping a literal segment. -/
def echoBlock (html : List Char) : List Char :=
  "echo(".data ++ jsonStringify html ++ ");".data

/-- The scan of `parseJSSBlocks(content)`: repeatedly find `<?`, take the
shortest stretch to the following `?>`, emit the preceding literal text as
an `echo` block and the trimmed inner text as a code block.  `fuel` bounds
the recursion; `content.length` always suffices since every step consumes
the `<?` and `?>` delimiters. -/
def jssScanF : Nat → List Char → List (List Char)
  | 0, _ => []
  | fuel + 1, cs =>
    match firstIdx ['<', '?'] cs with
    | none => if cs = [] then [] else [echoBlock cs]
    | some i =>
      let rest := cs.drop (i + 2)
      match firstIdx ['?', '>'] rest with
      | none => if cs = [] then [] else [echoBlock cs]
      | some j =>
        let html := cs.take i
        let code := jsTrim (rest.take j)
        let after := rest.drop (j + 2)
        (if html = [] then [] else [echoBlock html]) ++ code :: jssScanF fuel after

/-- `blocks.join('\n')`. -/
def joinNL : List (List Char) → List Char
  | [] => []
  | [x] => x
  | x :: t => x ++ '\n' :: joinNL t

/-- The compiled form of a source document: `parseJSSBlocks(raw).join('\n')`
from `evaluateJSSwithCache` in `exec.js`. -/
def compileJSS (content : String) : String :=
  String.mk (joinNL (jssScanF content.data.length content.data))

/-! ### Compilation cache (`evaluateJSSwithCache` in `exec.js`) -/

/-- The file-system state relevant to one source path: the source file's
current modification time and content, and the cache entry for that
path's cache key (modification time and stored compiled script), when one
exists. -/
structure CacheState where
  srcMtime : Nat
  srcContent : String
  cache : Option (Nat × String)
deriving DecidableEq

/-- The cache lookup of `evaluateJSSwithCache`: reuse the cache entry when
its stamp is at least the source's modification time, otherwise compile
fresh and persist the result (`now` is the write time stamped on the new
entry by `fs.writeFileSync`). -/
def cacheLookup (now : Nat) (st : CacheState) : String × CacheState :=
  match st.cache with
  | some (m, c) =>
      if st.srcMtime ≤ m then (c, st)
      else (compileJSS st.srcContent,
            { st with cache := some (now, compileJSS st.srcContent) })
  | none => (compileJSS st.srcContent,
             { st with cache := some (now, compileJSS st.srcContent) })

/-! ### Diagnostic error reports (`exec.js`) -/

/-- `lineNum.toString().padStart(4)`. -/
def pad4 (n : Nat) : String :=
  String.mk (List.replicate (4 - (toString n).length) ' ') ++ toString n

/-- After the captured `\d+`, the regex requires a colon and one more
digit. -/
def colonDigit : List Char → Bool
  | ':' :: d :: _ => d.isDigit
  | _ => false

/-- The capture of the first match of `/<anonymous>:(\d+):\d+/` in a stack
trace, used by `evaluateEvalBlocks` to locate the failing line. -/
def findAnonLineAux : List Char → Option Nat
  | [] => none
  | l@(_ :: t) =>
    if ("<anonymous>:".data).isPrefixOf l then
      let rest := l.drop 12
      let ds := rest.takeWhile Char.isDigit
      if !ds.isEmpty && colonDigit (rest.drop ds.length) then
        some (ds.foldl (fun a c => a * 10 + (c.toNat - 48)) 0)
      else findAnonLineAux t
    else findAnonLineAux t

def findAnonLine (stack : String) : Option Nat := findAnonLineAux stack.data

/-- One numbered line of the `evaluateEvalBlocks` diagnostic report, with
the failing-line highlight. -/
def divLineEval (errLine : Option Nat) (idx : Nat) (line : List Char) : String :=
  "<div style=\"white-space: pre; "
    ++ (if some (idx + 1) = errLine then "background: #fee;" else "")
    ++ "\"><span style=\"color:gray;\">" ++ pad4 (idx + 1) ++ ":</span> "
    ++ html_escape (String.mk line) ++ "</div>"

/-- One numbered line of the `evaluateJSSwithCache` diagnostic report
(no highlight is computed there). -/
def divLineCache (idx : Nat) (line : List Char) : String :=
  "<div style=\"white-space: pre;\"><span style=\"color:gray;\">"
    ++ pad4 (idx + 1) ++ ":</span> " ++ html_escape (String.mk line) ++ "</div>"

/-- `lines.map((line, idx) => f(idx, line))`. -/
def idxMap (f : Nat → List Char → String) : Nat → List (List Char) → List String
  | _, [] => []
  | i, l :: ls => f i l :: idxMap f (i + 1) ls

/-- The diagnostic report of `evaluateEvalBlocks` (direct-eval executor):
escaped message, escaped stack, and the numbered script with the failing
line highlighted when the stack resolves to a line. -/
def reportEvalDebug (msg stack script : String) : String :=
  "\n        <h2 style=\"color:#a00;\">Script Error</h2>\n        <pre><b>"
    ++ html_escape msg
    ++ "</b></pre>\n        <h3>Stack Trace:</h3>\n        <pre>"
    ++ html_escape stack
    ++ "</pre>\n        <h3>Evaluated Script with Line Numbers:</h3>\n        <div style=\"font-family:monospace; font-size:0.9em;\">"
    ++ concatStrs (idxMap (divLineEval (findAnonLine stack)) 0
         (splitOnChar '\n' script.data))
    ++ "</div>\n      "

/-- The diagnostic report of `evaluateJSSwithCache` (cached executor):
escaped message, escaped stack, numbered script, no highlighting. -/
def reportCacheDebug (msg stack script : String) : String :=
  "\n        <h2 style=\"color:#a00;\">Script Error</h2>\n        <pre><b>"
    ++ html_escape msg
    ++ "</b></pre>\n        <h3>Stack Trace:</h3>\n        <pre>"
    ++ html_escape stack
    ++ "</pre>\n        <h3>Evaluated Script:</h3>\n        <div style=\"font-family:monospace;\">"
    ++ concatStrs (idxMap divLineCache 0 (splitOnChar '\n' script.data))
    ++ "</div>\n      "

/-- The catch clause of `evaluateJSSwithCache` in `exec.js`: in debug mode
it returns the diagnostic report, otherwise it rethrows the error
(modelled as `Except.error` carrying the message and stack). -/
def cachedCatch (debugMode : Bool) (msg stack fullScript : String) :
    Except (String × String) String :=
  if debugMode then Except.ok (reportCacheDebug msg stack fullScript)
  else Except.error (msg, stack)

/-- The body that the catch clause of `evCompiled` in `exec.js` passes to
`exit` when an error reaches it: the escaped stack trace in a `pre`
element.  It is a function of the error alone. -/
def evCompiledCatchBody (stack : String) : String :=
  "<pre style=\"color:red;\">" ++ html_escape stack ++ "</pre>"

/-! Infix helpers for the report containment arguments. -/

theorem strInfix_right (x a b : String) (h : x.data <:+: b.data) :
    x.data <:+: (a ++ b).data := by
  obtain ⟨s, t, hh⟩ := h
  exact ⟨a.data ++ s, t, by rw [strData, ← hh]; simp [List.append_assoc]⟩

theorem strInfix_left (x a b : String) (h : x.data <:+: a.data) :
    x.data <:+: (a ++ b).data := by
  obtain ⟨s, t, hh⟩ := h
  exact ⟨s, t ++ b.data, by rw [strData, ← hh]; simp [List.append_assoc]⟩

theorem strInfix_self (x : String) : x.data <:+: x.data := ⟨[], [], by simp⟩

theorem strInfix_mid (x a b : String) : x.data <:+: (a ++ x ++ b).data :=
  strInfix_left _ _ _ (strInfix_right _ _ _ (strInfix_self x))

theorem idxMap_piece (f : Nat → List Char → String) (ls : List (List Char))
    (i k : Nat) (hk : k < ls.length) :
    (f (i + k) (ls.get ⟨k, hk⟩)).data <:+: (concatStrs (idxMap f i ls)).data := by
  induction ls generalizing i k with
  | nil => simp at hk
  | cons l t ih =>
      cases k with
      | zero =>
          show (f (i + 0) l).data <:+: (f i l ++ concatStrs (idxMap f (i + 1) t)).data
          rw [Nat.add_zero]
          exact strInfix_left _ _ _ (strInfix_self _)
      | succ k0 =>
          have hk0 : k0 < t.length := Nat.lt_of_succ_lt_succ hk
          have := ih (i + 1) k0 hk0
          show (f (i + (k0 + 1)) ((l :: t).get ⟨k0 + 1, hk⟩)).data <:+:
            (f i l ++ concatStrs (idxMap f (i + 1) t)).data
          have harr : i + (k0 + 1) = (i + 1) + k0 := by omega
          rw [harr]
          exact strInfix_right _ _ _ this

/-! ### Multipart form-data parsing (`parseMultipartBody` in
`src/multipart/form-data`) -/

/-- First capture of a regex of the shape `key"([^"]*)"` (or `([^"]+)` when
`req` is set): at the leftmost position where `key` matches and a closing
quote follows, the characters up to that quote. -/
def findCapture (key : List Char) (req : Bool) : List Char → Option (List Char)
  | [] => none
  | l@(_ :: t) =>
    if key.isPrefixOf l then
      let rest := l.drop key.length
      match firstIdx ['"'] rest with
      | some q =>
          let cap := rest.take q
          if req && cap.isEmpty then findCapture key req t else some cap
      | none => findCapture key req t
    else findCapture key req t

/-- ASCII lowercasing for the case-insensitive `Content-Type` header match. -/
def lowerChar (c : Char) : Char :=
  if 65 ≤ c.toNat ∧ c.toNat ≤ 90 then Char.ofNat (c.toNat + 32) else c

/-- Capture of `/Content-Type:\s*(.+)/i` on the raw part headers: after the
(case-insensitive) key, skip whitespace and take the rest of the line.
The `\s*`/`(.+)` backtracking of the regex engine is approximated by the
greedy scan; the captured value is not load-bearing for any claim. -/
def contentTypeOf : List Char → Option String
  | [] => none
  | l@(_ :: t) =>
    if ("content-type:".data).isPrefixOf (l.map lowerChar) then
      let rest := (l.drop 13).dropWhile Char.isWhitespace
      let cap := rest.takeWhile fun c => ¬ (c = '\n' ∨ c = '\r')
      if cap.isEmpty then contentTypeOf t else some (String.mk cap)
    else contentTypeOf t

/-- `path.basename`: the component after the last `/`. -/
def basename (l : List Char) : List Char := (splitOnChar '/' l).getLastD []

/-- The recorded `_FILES` entry: sanitized name, declared content type,
size, generated upload path, the persisted bytes (what `fs.writeFileSync`
wrote at that path), and the error slot. -/
structure FileRec where
  name : String
  type : Option String
  size : Nat
  tmp_name : String
  content : List Char
  error : Nat
deriving DecidableEq

/-- The outcome of `parseMultipartBody`: the `_FILES` entries (keyed by the
`name` capture, which the code uses even when absent), the `_POST`
entries, and the append-only log of the `fs.writeFileSync` calls — one
created FileRec (upload path plus the bytes written there) per file
part, in processing order. -/
structure MPResult where
  files : List (Option String × FileRec)
  posts : List (String × String)
  writes : List FileRec
deriving DecidableEq

def fUpsert (m : List (Option String × FileRec)) (k : Option String)
    (v : FileRec) : List (Option String × FileRec) :=
  match m with
  | [] => [(k, v)]
  | (k0, v0) :: t => if k0 = k then (k0, v) :: t else (k0, v0) :: fUpsert t k v

def pUpsert (m : List (String × String)) (k v : String) : List (String × String) :=
  match m with
  | [] => [(k, v)]
  | (k0, v0) :: t => if k0 = k then (k0, v) :: t else (k0, v0) :: pUpsert t k v

/-- The generated upload path `path.join(uploadDir, Date.now() + '_' + safe)`. -/
def tmpName (now : Nat) (safe : List Char) : String :=
  "uploads/" ++ toString now ++ "_" ++ String.mk safe

/-- The boundary-scanning loop of `parseMultipartBody`, on the suffix of
the buffer from the current scan position: find the next boundary, slice
off the part minus its trailing CRLF, continue past the boundary and its
CRLF.  `fuel` bounds the iteration count; the buffer length always
suffices since every step consumes at least the boundary. -/
def partsLoopF (bb : List Char) : Nat → List Char → List (List Char)
  | 0, _ => []
  | fuel + 1, suffix =>
    if suffix = [] then []
    else
      match firstIdx bb suffix with
      | none => []
      | some k =>
          suffix.take (k - 2) :: partsLoopF bb fuel (suffix.drop (k + bb.length + 2))

theorem partsLoopF_stop (bb : List Char) (fuel : Nat) (s : List Char)
    (h : firstIdx bb s = none) : partsLoopF bb fuel s = [] := by
  cases fuel with
  | zero => rfl
  | succ f =>
      by_cases hs : s = []
      · simp [partsLoopF, hs]
      · simp [partsLoopF, hs, h]

/-- Processing of one part: split raw headers from content at the first
`\r\n\r\n`, run the `name`/`filename`/`Content-Type` regexes, then either
persist a file part or record a scalar field. -/
def processPart (now : Nat) (acc : MPResult) (part : List Char) : MPResult :=
  match firstIdx ['\r', '\n', '\r', '\n'] part with
  | none => acc
  | some he =>
    let rawHeaders := part.take he
    let content := part.drop (he + 4)
    let nameOpt := (findCapture ("name=\"".data) true rawHeaders).map String.mk
    match findCapture ("filename=\"".data) false rawHeaders with
    | some fd =>
        if fd.isEmpty then
          match nameOpt with
          | some n => { acc with posts := pUpsert acc.posts n (String.mk content) }
          | none => acc
        else
          let safe := basename fd
          let fr : FileRec := ⟨String.mk safe, contentTypeOf rawHeaders,
            content.length, tmpName now safe, content, 0⟩
          { acc with files := fUpsert acc.files nameOpt fr,
                     writes := acc.writes ++ [fr] }
    | none =>
        match nameOpt with
        | some n => { acc with posts := pUpsert acc.posts n (String.mk content) }
        | none => acc

/-- Port of `parseMultipartBody(buffer, boundary)`: scan for `--boundary`,
collect the parts, and process each one in order. -/
def parseMultipartBody (now : Nat) (buffer : List Char) (boundary : String) :
    MPResult :=
  let bb := '-' :: '-' :: boundary.data
  match firstIdx bb buffer with
  | none => ⟨[], [], []⟩
  | some i =>
      (partsLoopF bb buffer.length (buffer.drop (i + bb.length + 2))).foldl
        (processPart now) ⟨[], [], []⟩

/-! Well-formed multipart bodies with an arbitrary list of parts, and the
behaviour of the scanner and of the write log on them. -/

/-- The bytes of a multipart body after its first boundary: for each part,
the CRLF ending the boundary line, the part's bytes, the CRLF before the
next boundary, and that boundary; after the last boundary, the closing
tail `tl` (e.g. `--` or `--\r\n`). -/
def mpRest (bb : List Char) : List (List Char) → List Char → List Char
  | [], tl => tl
  | p :: ps, tl => '\r' :: '\n' :: (p ++ ('\r' :: '\n' :: (bb ++ mpRest bb ps tl)))

/-- The scanner suffix at the start of each loop iteration: the current
part followed by the rest of the body, or what remains of the tail after
the final boundary. -/
def mpSuffix (bb : List Char) : List (List Char) → List Char → List Char
  | [], tl => tl.drop 2
  | p :: ps, tl => p ++ ('\r' :: '\n' :: (bb ++ mpRest bb ps tl))

/-- Well-formedness of the part list against the boundary: the boundary
marker does not occur inside any part (nor straddling the part's trailing
CRLF), so each scan finds exactly the next real boundary. -/
def noEarlyB (bb : List Char) : List (List Char) → List Char → Bool
  | [], _ => true
  | p :: ps, tl =>
      ((List.range (p ++ ['\r', '\n']).length).all fun i =>
        !(bb.isPrefixOf ((p ++ ['\r', '\n']).drop i ++ (bb ++ mpRest bb ps tl))))
      && noEarlyB bb ps tl

theorem mpRest_drop2 (bb : List Char) (ps : List (List Char)) (tl : List Char) :
    (mpRest bb ps tl).drop 2 = mpSuffix bb ps tl := by
  cases ps <;> rfl

theorem mpRest_length_ge (bb : List Char) (ps : List (List Char)) (tl : List Char) :
    ps.length ≤ (mpRest bb ps tl).length := by
  induction ps with
  | nil => simp [mpRest]
  | cons p t ih =>
      simp only [mpRest, List.length_cons, List.length_append]
      omega

/-- On a well-formed multipart body the scanner loop recovers exactly the
list of parts, in order. -/
theorem partsLoopF_mpSuffix (bb : List Char) (ps : List (List Char)) (tl : List Char)
    (fuel : Nat) (hfuel : ps.length ≤ fuel)
    (hno : noEarlyB bb ps tl = true)
    (htl : firstIdx bb (tl.drop 2) = none) :
    partsLoopF bb fuel (mpSuffix bb ps tl) = ps := by
  induction ps generalizing fuel with
  | nil => exact partsLoopF_stop bb fuel _ htl
  | cons p t ih =>
      obtain ⟨f, rfl⟩ : ∃ f, fuel = f + 1 := by
        cases fuel with
        | zero => simp at hfuel
        | succ f => exact ⟨f, rfl⟩
      simp only [noEarlyB, Bool.and_eq_true, List.all_eq_true, List.mem_range] at hno
      obtain ⟨hX, hno2⟩ := hno
      have hno1 : ∀ i, i < (p ++ ['\r', '\n']).length →
          ¬ bb.isPrefixOf ((p ++ ['\r', '\n']).drop i ++ (bb ++ mpRest bb t tl)) = true := by
        intro i hi
        have := hX i hi
        simp only [Bool.not_eq_true'] at this
        simp [this]
      have hsplit : mpSuffix bb (p :: t) tl
          = (p ++ ['\r', '\n']) ++ (bb ++ mpRest bb t tl) := by
        simp [mpSuffix, List.append_assoc]
      have h1 : firstIdx bb (mpSuffix bb (p :: t) tl)
          = some (p ++ ['\r', '\n']).length := by
        rw [hsplit]
        exact firstIdx_append_of_not_early _ _ _ hno1 (isPrefixOf_append_self _ _)
      have hne : ¬ mpSuffix bb (p :: t) tl = [] := by
        simp [mpSuffix]
      have htake : (mpSuffix bb (p :: t) tl).take ((p ++ ['\r', '\n']).length - 2) = p := by
        have hl2 : (p ++ ['\r', '\n']).length - 2 = p.length := by simp
        rw [hl2]
        exact List.take_left p _
      have hdrop : (mpSuffix bb (p :: t) tl).drop
          ((p ++ ['\r', '\n']).length + bb.length + 2) = mpSuffix bb t tl := by
        rw [hsplit, Nat.add_assoc,
            @List.drop_append Char (p ++ ['\r', '\n']) (bb ++ mpRest bb t tl)
              (bb.length + 2),
            @List.drop_append Char bb (mpRest bb t tl) 2, mpRest_drop2]
      simp only [partsLoopF, if_neg hne, h1, htake, hdrop]
      rw [ih f (Nat.le_of_succ_le_succ hfuel) hno2]

theorem processPart_writes_mono (now : Nat) (acc : MPResult) (p : List Char)
    (x : FileRec) (hx : x ∈ acc.writes) :
    x ∈ (processPart now acc p).writes := by
  cases hfi : firstIdx ['\r', '\n', '\r', '\n'] p with
  | none => simp [processPart, hfi, hx]
  | some he =>
      cases hfc : findCapture ("filename=\"".data) false (p.take he) with
      | none =>
          cases hn : findCapture ("name=\"".data) true (p.take he) with
          | some n => simp [processPart, hfi, hfc, hn, hx]
          | none => simp [processPart, hfi, hfc, hn, hx]
      | some fd =>
          cases hfe : fd.isEmpty with
          | true =>
              cases hn : findCapture ("name=\"".data) true (p.take he) with
              | some n => simp [processPart, hfi, hfc, hfe, hn, hx]
              | none => simp [processPart, hfi, hfc, hfe, hn, hx]
          | false => simp [processPart, hfi, hfc, hfe, hx]

theorem foldl_writes_mono (now : Nat) (parts : List (List Char)) (acc : MPResult)
    (x : FileRec) (hx : x ∈ acc.writes) :
    x ∈ (parts.foldl (processPart now) acc).writes := by
  induction parts generalizing acc with
  | nil => exact hx
  | cons p t ih => exact ih _ (processPart_writes_mono now acc p x hx)

/-- Processing a file part — headers ending at the part's first
`\r\n\r\n`, a non-empty `filename` capture — appends to the write log a
record persisting exactly the content bytes, with `size` that count. -/
theorem processPart_file_write (now : Nat) (acc : MPResult) (h c fd : List Char)
    (hfn : findCapture ("filename=\"".data) false h = some fd)
    (hfd : fd ≠ [])
    (hh : ∀ i, i < h.length →
        ¬ (['\r', '\n', '\r', '\n'] : List Char).isPrefixOf
            (h.drop i ++ ('\r' :: '\n' :: '\r' :: '\n' :: c))) :
    (processPart now acc (h ++ ('\r' :: '\n' :: '\r' :: '\n' :: c))).writes
      = acc.writes ++
        [⟨String.mk (basename fd), contentTypeOf h, c.length,
          tmpName now (basename fd), c, 0⟩] := by
  have hhe : firstIdx ['\r', '\n', '\r', '\n'] (h ++ ('\r' :: '\n' :: '\r' :: '\n' :: c))
      = some h.length := by
    have he : h ++ ('\r' :: '\n' :: '\r' :: '\n' :: c)
        = h ++ (['\r', '\n', '\r', '\n'] ++ c) := rfl
    rw [he]
    exact firstIdx_append_of_not_early _ _ _
      (by intro i hi; simpa using hh i hi) (isPrefixOf_append_self _ _)
  have hraw : (h ++ ('\r' :: '\n' :: '\r' :: '\n' :: c)).take h.length = h :=
    List.take_left h _
  have hcont : (h ++ ('\r' :: '\n' :: '\r' :: '\n' :: c)).drop (h.length + 4) = c := by
    rw [@List.drop_append Char h ('\r' :: '\n' :: '\r' :: '\n' :: c) 4]
    rfl
  have hfe : fd.isEmpty = false := by
    cases fd with
    | nil => exact absurd rfl hfd
    | cons a t => rfl
  simp [processPart, hhe, hraw, hcont, hfn, hfe]

/-! ### Claim theorems -/

/-- C8: for every string `s`, once the response is Finalized (headers
flushed), calling `header s` leaves the whole response state — header
buffer, body buffer, and flag — exactly as before. -/
theorem c8_headerAfterFinalized_noop (st : RState) (s : String)
    (h : st.headersSent = true) : header s st = st := by
  simp [header, h]

theorem c8_witness :
    header "X-Test: 1" ⟨true, "A: b\r\n", "body"⟩ = ⟨true, "A: b\r\n", "body"⟩ :=
  c8_headerAfterFinalized_noop ⟨true, "A: b\r\n", "body"⟩ "X-Test: 1" rfl

/-- C2, counterexample: for the Building state with header buffer
`"H: v\r\n"` and body buffer `"B"`, `exit "X"` writes
`"H: v\r\n\r\nXB"` — the extra body precedes the buffered body — and not
the claimed headers ++ CRLF ++ body ++ extra order. -/
theorem c2_counterexample :
    (exit ⟨false, "H: v\r\n", "B"⟩ "X").2 = "H: v\r\n\r\nXB" ∧
    ¬ (exit ⟨false, "H: v\r\n", "B"⟩ "X").2 =
        (RState.mk false "H: v\r\n" "B").headerBuffer ++ "\r\n"
          ++ (RState.mk false "H: v\r\n" "B").bodyBuffer ++ "X" := by
  constructor
  · rfl
  · decide

/-- C2, amended: while the response is still Building, `exit msg` writes
the buffered header lines, one blank CRLF line, then the extra body `msg`
followed by the buffered body (the extra body comes first), and the state
transitions to Finalized. -/
theorem c2_exitOrder (st : RState) (msg : String) (h : st.headersSent = false) :
    (exit st msg).2 = st.headerBuffer ++ "\r\n" ++ msg ++ st.bodyBuffer ∧
    (exit st msg).1.headersSent = true := by
  have hm : (if msg ≠ "" then msg else "") = msg := by
    by_cases hh : msg = "" <;> simp [hh]
  constructor
  · show (if st.headersSent then "" else st.headerBuffer ++ "\r\n")
        ++ (if msg ≠ "" then msg else "") ++ st.bodyBuffer = _
    rw [h, ite_cond_eq_false _ _ (by simp), hm]
  · rfl

theorem c2_witness :
    (exit ⟨false, "H: v\r\n", "B"⟩ "X").2 = "H: v\r\n" ++ "\r\n" ++ "X" ++ "B" ∧
    (exit ⟨false, "H: v\r\n", "B"⟩ "X").1.headersSent = true :=
  c2_exitOrder ⟨false, "H: v\r\n", "B"⟩ "X" rfl

/-- C9: `html_escape` replaces each occurrence of `&`, `<`, `>`, `"`, `'`
by `&amp;`, `&lt;`, `&gt;`, `&quot;`, `&#039;` respectively and leaves
every other character unchanged: splitting any input around one character
splits the output around that character's image. -/
theorem c9_htmlEscape (s t : String) (c : Char) :
    html_escape (s ++ String.mk [c] ++ t) =
      html_escape s ++
        (if c = '&' then "&amp;"
         else if c = '<' then "&lt;"
         else if c = '>' then "&gt;"
         else if c = '"' then "&quot;"
         else if c = '\'' then "&#039;"
         else String.mk [c]) ++ html_escape t := by
  rw [html_escape_append, html_escape_append, html_escape_single]
  rfl

/-- C3, counterexample: for the urlencoded body `a=1&a=2` the parsed field
for `a` is the array `["1", "2"]`, not the single string `"2"` of the
last occurrence. -/
theorem c3_counterexample :
    parseUrlEncodedBody "a=1&a=2" = [("a", QSVal.arr ["1", "2"])] ∧
    QSVal.arr ["1", "2"] ≠ QSVal.str "2" := by
  constructor
  · rfl
  · decide

/-- C3, amended: for every urlencoded body and key, the parsed body field
collects all occurrences of the key in order: absent keys stay absent, a
key occurring once maps to its value as a plain string, and a key
occurring more than once maps to the array of all its values in
occurrence order (instead of the last occurrence overwriting). -/
theorem c3_duplicateKeys (body : String) (k : String) :
    lookupQS k (parseUrlEncodedBody body) =
      valsToQS (((pairsOf body).filter (fun p => p.1 == k)).map Prod.snd) := by
  unfold parseUrlEncodedBody
  rw [lookupQS_foldl]
  show combineQS (lookupQS k []) _ = _
  rw [show lookupQS k [] = none from rfl, combineQS_none]

/-- C4, counterexample: the distinct source paths `"ab>"` and `"ab?"`
(bytes `[97, 98, 62]` and `[97, 98, 63]`, base64 `YWI+` and `YWI/`) share
the cache path, so the derivation is not injective. -/
theorem c4_counterexample :
    getCachePath [97, 98, 62] = getCachePath [97, 98, 63] ∧
    ([97, 98, 62] : List Nat) ≠ [97, 98, 63] := by
  constructor
  · rfl
  · decide

/-- C4, amended: the derivation is deterministic but not injective in
general — paths whose base64 encodings differ only in the characters
`+`, `/`, `=` collide; injectivity does hold on the paths whose base64
encoding uses only the 62 alphanumeric sextets (no `+`, `/` or
padding). -/
theorem c4_injOnAlphanumeric (p1 p2 : List Nat)
    (h1 : ∀ b ∈ p1, b < 256) (h2 : ∀ b ∈ p2, b < 256)
    (e1 : ∀ v ∈ b64Encode p1, v < 62) (e2 : ∀ v ∈ b64Encode p2, v < 62)
    (heq : getCachePath p1 = getCachePath p2) : p1 = p2 := by
  unfold getCachePath at heq
  have hd := congrArg String.data heq
  rw [strData, strData, strData, strData, strMkData, strMkData] at hd
  have hmid := List.append_cancel_left (List.append_cancel_right hd)
  exact b64Encode_injOn p1 p2 h1 h2
    (map_keyChar_injOn (b64Encode p1) (b64Encode p2) e1 e2 hmid)

theorem c4_witness : ([97, 98, 99] : List Nat) = [97, 98, 99] :=
  c4_injOnAlphanumeric [97, 98, 99] [97, 98, 99]
    (by decide) (by decide) (by decide) (by decide) rfl

/-- C5: the cache lookup returns the stored compiled form exactly when an
entry exists whose stamp is at least the source's modification time;
otherwise (stale entry or no entry) it compiles the source fresh,
persists the new entry, and returns the fresh compilation — so moving the
source's modification time strictly past the cache stamp forces
recompilation. -/
theorem c5_cacheLookup (now : Nat) (st : CacheState) :
    (∀ m c, st.cache = some (m, c) → st.srcMtime ≤ m →
        cacheLookup now st = (c, st)) ∧
    (∀ m c, st.cache = some (m, c) → m < st.srcMtime →
        cacheLookup now st =
          (compileJSS st.srcContent,
           { st with cache := some (now, compileJSS st.srcContent) })) ∧
    (st.cache = none →
        cacheLookup now st =
          (compileJSS st.srcContent,
           { st with cache := some (now, compileJSS st.srcContent) })) := by
  refine ⟨?_, ?_, ?_⟩
  · intro m c h hle
    simp [cacheLookup, h, hle]
  · intro m c h hlt
    simp [cacheLookup, h, Nat.not_le.mpr hlt]
  · intro h
    simp [cacheLookup, h]

theorem c5_witness :
    cacheLookup 10 ⟨3, "x", some (5, "CC")⟩ = ("CC", ⟨3, "x", some (5, "CC")⟩) :=
  (c5_cacheLookup 10 ⟨3, "x", some (5, "CC")⟩).1 5 "CC" rfl (by decide)

/-- C10: each `;`-separated cookie entry is trimmed and split on `=`; a
pair is recorded only when both the key and the text up to the next `=`
are non-empty; for `k=v=w` the stored value is only `v`, the prefix
before the first embedded `=`; `k=` and bare `k` entries are ignored. -/
theorem c10_cookieEntries (k v w : List Char)
    (hk : '=' ∉ k) (hv : '=' ∉ v) (hk0 : k ≠ []) (hv0 : v ≠ [])
    (t1 : jsTrim (k ++ '=' :: v) = k ++ '=' :: v)
    (t2 : jsTrim (k ++ '=' :: (v ++ '=' :: w)) = k ++ '=' :: (v ++ '=' :: w))
    (t3 : jsTrim (k ++ ['=']) = k ++ ['='])
    (t4 : jsTrim k = k)
    (hsemi : ';' ∉ k ++ '=' :: v) :
    cookieEntry (k ++ '=' :: v) = some (k, v) ∧
    cookieEntry (k ++ '=' :: (v ++ '=' :: w)) = some (k, v) ∧
    cookieEntry (k ++ ['=']) = none ∧
    cookieEntry k = none ∧
    parseCookies (k ++ '=' :: v) = [(k, v)] := by
  have e1 : cookieEntry (k ++ '=' :: v) = some (k, v) := by
    simp [cookieEntry, t1, splitOnChar_append '=' k v hk,
          splitOnChar_not_mem '=' v hv, hk0, hv0]
  refine ⟨e1, ?_, ?_, ?_, ?_⟩
  · simp [cookieEntry, t2, splitOnChar_append '=' k (v ++ '=' :: w) hk,
          splitOnChar_append '=' v w hv, hk0, hv0]
  · simp [cookieEntry, t3, splitOnChar_append '=' k ([] : List Char) hk,
          splitOnChar]
  · simp [cookieEntry, t4, splitOnChar_not_mem '=' k hk]
  · simp [parseCookies, splitOnChar_not_mem ';' _ hsemi, e1, cUpsert]

theorem c10_witness :
    cookieEntry ("sid=abc".data) = some ("sid".data, "abc".data) ∧
    cookieEntry ("sid=abc=zz".data) = some ("sid".data, "abc".data) ∧
    cookieEntry ("sid=".data) = none ∧
    cookieEntry ("sid".data) = none ∧
    parseCookies ("sid=abc".data) = [("sid".data, "abc".data)] :=
  c10_cookieEntries "sid".data "abc".data "zz".data
    (by decide) (by decide) (by decide) (by decide)
    (by decide) (by decide) (by decide) (by decide) (by decide)

/-- C1, counterexample: with diagnostic mode off, the concrete error whose
stack trace is `TypeError: x is not a function\n    at f (script.jss:3:1)`
produces a 500-class body in which that stack trace appears verbatim —
refuting that neither source nor stack trace appears in the response. -/
theorem c1_counterexample :
    ("TypeError: x is not a function\n    at f (script.jss:3:1)").data <:+:
      (evCompiledCatchBody
        "TypeError: x is not a function\n    at f (script.jss:3:1)").data := by
  unfold evCompiledCatchBody
  have h : html_escape "TypeError: x is not a function\n    at f (script.jss:3:1)"
      = "TypeError: x is not a function\n    at f (script.jss:3:1)" := by decide
  rw [h]
  exact strInfix_mid _ _ _

/-- C1, amended: with diagnostic mode off, an execution failure in the
cached executor is rethrown by `evaluateJSSwithCache`, and the outer
`evCompiled` handler emits a 500-class body consisting of the HTML-escaped
stack trace in a `pre` element — so the stack trace is leaked, while the
compiled/template source text is not included (the body is built from the
error alone). -/
theorem c1_stackLeak (msg stack script : String) :
    cachedCatch false msg stack script = Except.error (msg, stack) ∧
    (html_escape stack).data <:+: (evCompiledCatchBody stack).data := by
  refine ⟨rfl, ?_⟩
  unfold evCompiledCatchBody
  exact strInfix_mid _ _ _

set_option maxRecDepth 100000 in
/-- C6, counterexample: under diagnostic mode in the cached executor, for
the error with stack `at <anonymous>:1:5` (failing line 1, resolvable and
in range) and the one-line script `f()`, the produced report contains no
highlight marker — refuting that the failing line is visually flagged. -/
theorem c6_counterexample :
    findAnonLine "at <anonymous>:1:5" = some 1 ∧
    1 ≤ (splitOnChar '\n' ("f()" : String).data).length ∧
    ¬ ("background: #fee;").data <:+:
        (reportCacheDebug "e" "at <anonymous>:1:5" "f()").data := by
  refine ⟨by decide, by decide, by decide⟩

/-- C6, amended: with diagnostic mode on, the direct-eval executor's
report contains the escaped message, the escaped stack, and the numbered
script with the failing line highlighted whenever the stack resolves to a
line number in range; the cached executor's report contains the escaped
message, the escaped stack and the numbered script, but performs no
highlighting. -/
theorem c6_debugReports (msg stack script : String) (n : Nat)
    (hn : findAnonLine stack = some n) (h1 : 1 ≤ n)
    (h2 : n ≤ (splitOnChar '\n' script.data).length) :
    ("background: #fee;").data <:+: (reportEvalDebug msg stack script).data ∧
    (html_escape msg).data <:+: (reportEvalDebug msg stack script).data ∧
    (html_escape stack).data <:+: (reportEvalDebug msg stack script).data ∧
    (html_escape msg).data <:+: (reportCacheDebug msg stack script).data ∧
    (html_escape stack).data <:+: (reportCacheDebug msg stack script).data := by
  have hk : n - 1 < (splitOnChar '\n' script.data).length := by omega
  refine ⟨?_, ?_, ?_, ?_, ?_⟩
  · unfold reportEvalDebug
    rw [hn]
    have hdiv : ("background: #fee;").data <:+:
        (divLineEval (some n) (0 + (n - 1))
          ((splitOnChar '\n' script.data).get ⟨n - 1, hk⟩)).data := by
      unfold divLineEval
      have hidx : 0 + (n - 1) + 1 = n := by omega
      rw [hidx, if_pos rfl]
      apply strInfix_left
      apply strInfix_left
      apply strInfix_left
      apply strInfix_left
      apply strInfix_left
      exact strInfix_right _ _ _ (strInfix_self _)
    have hnum := hdiv.trans
      (idxMap_piece (divLineEval (some n)) (splitOnChar '\n' script.data) 0 (n - 1) hk)
    apply strInfix_left
    exact strInfix_right _ _ _ hnum
  · unfold reportEvalDebug
    apply strInfix_left
    apply strInfix_left
    apply strInfix_left
    apply strInfix_left
    apply strInfix_left
    exact strInfix_right _ _ _ (strInfix_self _)
  · unfold reportEvalDebug
    apply strInfix_left
    apply strInfix_left
    apply strInfix_left
    exact strInfix_right _ _ _ (strInfix_self _)
  · unfold reportCacheDebug
    apply strInfix_left
    apply strInfix_left
    apply strInfix_left
    apply strInfix_left
    apply strInfix_left
    exact strInfix_right _ _ _ (strInfix_self _)
  · unfold reportCacheDebug
    apply strInfix_left
    apply strInfix_left
    apply strInfix_left
    exact strInfix_right _ _ _ (strInfix_self _)

/-- C7: for every well-formed multipart body containing a file part — any
parts `ps1` before it and `ps2` after it, a boundary that does not occur
inside the parts, the file part's headers ending at its first `\r\n\r\n`
and carrying a non-empty `filename` — the parse persists at the generated
upload path exactly the part's content bytes `c` (the bytes between the
part's first `\r\n\r\n` header separator and the CRLF preceding the next
boundary), and the recorded FileDescriptor's `size` field equals that byte
count. -/
theorem c7_multipartFile (bdy : String) (h c tl : List Char) (now : Nat)
    (fd : List Char) (ps1 ps2 : List (List Char))
    (hfn : findCapture ("filename=\"".data) false h = some fd)
    (hfd : fd ≠ [])
    (hh : ∀ i, i < h.length →
        ¬ (['\r', '\n', '\r', '\n'] : List Char).isPrefixOf
            (h.drop i ++ ('\r' :: '\n' :: '\r' :: '\n' :: c)))
    (hno : noEarlyB ('-' :: '-' :: bdy.data)
        (ps1 ++ (h ++ ('\r' :: '\n' :: '\r' :: '\n' :: c)) :: ps2) tl = true)
    (htl : firstIdx ('-' :: '-' :: bdy.data) (tl.drop 2) = none) :
    (⟨String.mk (basename fd), contentTypeOf h, c.length,
      tmpName now (basename fd), c, 0⟩ : FileRec) ∈
        (parseMultipartBody now
          (('-' :: '-' :: bdy.data) ++
            mpRest ('-' :: '-' :: bdy.data)
              (ps1 ++ (h ++ ('\r' :: '\n' :: '\r' :: '\n' :: c)) :: ps2) tl) bdy).writes
    ∧ (⟨String.mk (basename fd), contentTypeOf h, c.length,
        tmpName now (basename fd), c, 0⟩ : FileRec).content = c
    ∧ (⟨String.mk (basename fd), contentTypeOf h, c.length,
        tmpName now (basename fd), c, 0⟩ : FileRec).size = c.length := by
  refine ⟨?_, rfl, rfl⟩
  have h0 : firstIdx ('-' :: '-' :: bdy.data)
      (('-' :: '-' :: bdy.data) ++
        mpRest ('-' :: '-' :: bdy.data)
          (ps1 ++ (h ++ ('\r' :: '\n' :: '\r' :: '\n' :: c)) :: ps2) tl) = some 0 :=
    firstIdx_of_prefix _ _ (isPrefixOf_append_self _ _)
  have hdrop0 : (('-' :: '-' :: bdy.data) ++
        mpRest ('-' :: '-' :: bdy.data)
          (ps1 ++ (h ++ ('\r' :: '\n' :: '\r' :: '\n' :: c)) :: ps2) tl).drop
        (0 + ('-' :: '-' :: bdy.data).length + 2)
      = mpSuffix ('-' :: '-' :: bdy.data)
          (ps1 ++ (h ++ ('\r' :: '\n' :: '\r' :: '\n' :: c)) :: ps2) tl := by
    rw [Nat.zero_add,
        @List.drop_append Char ('-' :: '-' :: bdy.data)
          (mpRest ('-' :: '-' :: bdy.data)
            (ps1 ++ (h ++ ('\r' :: '\n' :: '\r' :: '\n' :: c)) :: ps2) tl) 2,
        mpRest_drop2]
  have hfuel : (ps1 ++ (h ++ ('\r' :: '\n' :: '\r' :: '\n' :: c)) :: ps2).length ≤
      (('-' :: '-' :: bdy.data) ++
        mpRest ('-' :: '-' :: bdy.data)
          (ps1 ++ (h ++ ('\r' :: '\n' :: '\r' :: '\n' :: c)) :: ps2) tl).length := by
    have h1 := mpRest_length_ge ('-' :: '-' :: bdy.data)
      (ps1 ++ (h ++ ('\r' :: '\n' :: '\r' :: '\n' :: c)) :: ps2) tl
    have h2 := List.length_append ('-' :: '-' :: bdy.data)
      (mpRest ('-' :: '-' :: bdy.data)
        (ps1 ++ (h ++ ('\r' :: '\n' :: '\r' :: '\n' :: c)) :: ps2) tl)
    omega
  have hparts := partsLoopF_mpSuffix ('-' :: '-' :: bdy.data)
    (ps1 ++ (h ++ ('\r' :: '\n' :: '\r' :: '\n' :: c)) :: ps2) tl _ hfuel hno htl
  simp only [parseMultipartBody, h0, hdrop0, hparts]
  rw [List.foldl_append, List.foldl_cons]
  apply foldl_writes_mono
  rw [processPart_file_write now _ h c fd hfn hfd hh]
  simp

theorem c7_witness :
    (⟨String.mk (basename ("test.txt").data),
      contentTypeOf
        ("Content-Disposition: form-data; name=\"file\"; filename=\"test.txt\"").data,
      ("hello" : String).data.length, tmpName 7 (basename ("test.txt").data),
      ("hello" : String).data, 0⟩ : FileRec) ∈
        (parseMultipartBody 7
          (('-' :: '-' :: ("XY" : String).data) ++
            mpRest ('-' :: '-' :: ("XY" : String).data)
              ([("Content-Disposition: form-data; name=\"foo\"\r\n\r\nbar").data] ++
                (("Content-Disposition: form-data; name=\"file\"; filename=\"test.txt\"").data
                  ++ ('\r' :: '\n' :: '\r' :: '\n' :: ("hello" : String).data)) :: [])
              ['-', '-']) "XY").writes
    ∧ (⟨String.mk (basename ("test.txt").data),
        contentTypeOf
          ("Content-Disposition: form-data; name=\"file\"; filename=\"test.txt\"").data,
        ("hello" : String).data.length, tmpName 7 (basename ("test.txt").data),
        ("hello" : String).data, 0⟩ : FileRec).content = ("hello" : String).data
    ∧ (⟨String.mk (basename ("test.txt").data),
        contentTypeOf
          ("Content-Disposition: form-data; name=\"file\"; filename=\"test.txt\"").data,
        ("hello" : String).data.length, tmpName 7 (basename ("test.txt").data),
        ("hello" : String).data, 0⟩ : FileRec).size = ("hello" : String).data.length :=
  c7_multipartFile "XY"
    ("Content-Disposition: form-data; name=\"file\"; filename=\"test.txt\"").data
    ("hello" : String).data ['-', '-'] 7 ("test.txt").data
    [("Content-Disposition: form-data; name=\"foo\"\r\n\r\nbar").data] []
    (by decide) (by decide) (by decide) (by decide) (by decide)

theorem c6_witness :
    ("background: #fee;").data <:+:
      (reportEvalDebug "e" "at <anonymous>:1:5" "f()").data ∧
    (html_escape "e").data <:+:
      (reportEvalDebug "e" "at <anonymous>:1:5" "f()").data ∧
    (html_escape "at <anonymous>:1:5").data <:+:
      (reportEvalDebug "e" "at <anonymous>:1:5" "f()").data ∧
    (html_escape "e").data <:+:
      (reportCacheDebug "e" "at <anonymous>:1:5" "f()").data ∧
    (html_escape "at <anonymous>:1:5").data <:+:
      (reportCacheDebug "e" "at <anonymous>:1:5" "f()").data :=
  c6_debugReports "e" "at <anonymous>:1:5" "f()" 1
    (by decide) (by decide) (by decide)

end Cgi
